import Mathlib

/-!
Verification development for the lottery-presenter draw engine.

The definitions below are a shallow embedding of the TypeScript source
(`src/unnamed/part_000`).  JavaScript 32-bit integer operations
(`Math.imul`, `>>> 0`, `|`, `^`, `>>>`) are modelled on `Nat` with explicit
`% 4294967296`; the mulberry32 float output `k / 2^32` is kept as the
integer numerator `k`, and comparisons such as `rng() * total` against
running integer sums are carried out on integers scaled by `2^32`, which
agrees exactly with the IEEE-754 double computation of the source for the
pool sizes the engine handles (`total < 2^21`).  `charCodeAt` is modelled
by `Char.toNat`, which coincides with UTF-16 code units on the
basic-multilingual-plane strings the engine builds its keys from.

React state updates are modelled as pure state transitions: per §5 of the
spec the engine is single-threaded and every draw tick is an indivisible
synchronous step, with the spin animation a cosmetic transient.  The
external entropy that feeds the cosmetic group-card spin display
(`Math.random` in the 50 ms interval) is threaded through the transition
functions as an explicit oracle argument so that its irrelevance to the
committed results can be stated and proved.
-/

namespace LotteryPresenter

/-- 2^32, the modulus of all JavaScript 32-bit bit operations. -/
def u32Mod : Nat := 4294967296

/-- `hashStringToInt32` from the source: FNV-1a over UTF-16 code units,
basis 2166136261, prime 16777619, all arithmetic mod 2^32. -/
def hashStringToInt32 (s : String) : Nat :=
  s.data.foldl (fun h c => ((h ^^^ c.toNat) * 16777619) % u32Mod) 2166136261

/-- One step of `mulberry32` from the source: returns the 32-bit output
numerator (the source divides it by 2^32 to get a float in `[0,1)`)
together with the updated generator state. -/
def mulberry32Next (a : Nat) : Nat × Nat :=
  let a1 := (a + 0x6d2b79f5) % u32Mod
  let t1 := ((a1 ^^^ (a1 >>> 15)) * (1 ||| a1)) % u32Mod
  let t2 := ((t1 + ((t1 ^^^ (t1 >>> 7)) * (61 ||| t1)) % u32Mod) % u32Mod) ^^^ t1
  (t2 ^^^ (t2 >>> 14), a1)

/-- First output of the mulberry32 stream seeded with `a`
(the engine consumes exactly one sample per committed selection). -/
def mulberry32Out (a : Nat) : Nat := (mulberry32Next a).1

/-- `padStart(2, '0')` on a decimal number below 100. -/
def pad2 (n : Nat) : String := if n < 10 then "0" ++ toString n else toString n

/-- `str.slice(i, j)` for ASCII-indexed strings. -/
def sliceStr (s : String) (i j : Nat) : String :=
  String.mk ((s.data.drop i).take (j - i))

/-- `phoneToPairs10` from the source: the five two-character slices of a
ten-digit phone key at offsets 0, 2, 4, 6, 8. -/
def phoneToPairs10 (phone10 : String) : List String :=
  [0, 2, 4, 6, 8].map (fun i => sliceStr phone10 i (i + 2))

/-- Participant tiers. -/
inductive Tier where
  | T1
  | T2
  | T3
deriving DecidableEq, Repr

/-- A (deduplicated) participant record; only the fields read by the draw
engine are kept. -/
structure Participant where
  id : Nat
  name : String
  phoneNorm : String
  tier : Tier
deriving DecidableEq, Repr

/-- A prize record. -/
structure Prize where
  id : String
  label : String
  subtitle : String
  group : String
  eligible : List Tier
deriving DecidableEq, Repr

/-- Group-mode per-card reveal state (`CardReveal` in the source).  `spin`
and `spinning` are the cosmetic animation transients. -/
structure CardReveal where
  pairs : List String
  step : Nat
  done : Bool
  spin : Option String
  spinning : Bool
deriving DecidableEq, Repr

/-- The default card used when a prize has no reveal record yet:
`{ pairs: ['--','--','--','--','--'], step: 0, done: false }`. -/
def freshCard : CardReveal :=
  { pairs := ["--", "--", "--", "--", "--"], step := 0, done := false
    spin := none, spinning := false }

/-!  JavaScript plain objects used as string-keyed maps (`winnersByPrizeId`,
`groupRevealByPrizeId`, `counts`, `updates`) update in place on existing
keys and enumerate, per ECMAScript, canonical array-index keys in ascending
numeric order before the remaining string keys in insertion order.  They
are modelled as association lists recorded in insertion order; the
enumeration order is applied by `jsEntriesOrder` at the one place the
engine's committed results depend on it, the `Object.entries(counts)`
iteration of the weighted pick.  The winners and card maps are keyed by
prize-id strings and consumed only through key lookups, deletions, and the
value *set* (`winnersSet`), for which enumeration order is immaterial. -/

/-- Object property read (`obj[k]`). -/
def alookup {α : Type} (w : List (String × α)) (k : String) : Option α :=
  match w with
  | [] => none
  | (k2, v) :: rest => if k2 == k then some v else alookup rest k

/-- Object property write (`obj[k] = v`, also `{ ...obj, [k]: v }`):
replaces in place when the key exists, appends otherwise. -/
def aset {α : Type} (w : List (String × α)) (k : String) (v : α) : List (String × α) :=
  match w with
  | [] => [(k, v)]
  | (k2, v2) :: rest => if k2 == k then (k2, v) :: rest else (k2, v2) :: aset rest k v

/-- Object property delete (`delete obj[k]`); object keys are unique, so
removing every entry with the key is the same as removing the entry. -/
def aerase {α : Type} (w : List (String × α)) (k : String) : List (String × α) :=
  w.filter (fun kv => !(kv.1 == k))

/-- `Object.values(obj)` in insertion order. -/
def avalues {α : Type} (w : List (String × α)) : List α := w.map Prod.snd

/-- The full engine state: the React state hooks that the draw logic reads
or writes.  `spinValue` is the single-mode cosmetic spin display. -/
structure EngineState where
  participants : List Participant
  prizes : List Prize
  currentPrizeIndex : Int
  winnersByPrizeId : List (String × Nat)
  groupMode : Bool
  selectedGroup : String
  groupRevealByPrizeId : List (String × CardReveal)
  revealedPairs : List String
  revealStep : Nat
  spinValue : String
  seedText : String
deriving DecidableEq, Repr

/-- `dedupedParticipants`: drop participants with an empty phone key or a
phone key already seen (first occurrence wins). -/
def dedupedParticipants (s : EngineState) : List Participant :=
  (s.participants.foldl
    (fun acc p =>
      if p.phoneNorm == "" || acc.2.contains p.phoneNorm then acc
      else (acc.1 ++ [p], acc.2 ++ [p.phoneNorm]))
    ([], [])).1

/-- `prizes[currentPrizeIndex]` (undefined for an out-of-range index). -/
def currentPrize (s : EngineState) : Option Prize :=
  if s.currentPrizeIndex < 0 then none else s.prizes[s.currentPrizeIndex.toNat]?

/-- `winnersSet`: the set of already-assigned participant ids, as the
insertion-ordered value list of the winners map. -/
def winnersSet (s : EngineState) : List Nat := avalues s.winnersByPrizeId

/-- Truthiness of `winnersByPrizeId[k]` in the source's guards
(absent keys and the id 0 are falsy). -/
def winnerTruthy (w : List (String × Nat)) (k : String) : Bool :=
  !((alookup w k).getD 0 == 0)

/-- `eligibleForCurrent`: deduplicated participants of an eligible tier
that hold no winner assignment anywhere. -/
def eligibleForCurrent (s : EngineState) : List Participant :=
  match currentPrize s with
  | none => []
  | some cp =>
      (dedupedParticipants s).filter
        (fun p => cp.eligible.contains p.tier && !((winnersSet s).contains p.id))

/-- The per-index comparison loop `ps[i] !== pairs[i]` for `i < step`. -/
def prefixMatches (ps pairs : List String) (step : Nat) : Bool :=
  (List.range step).all (fun i => ps.getD i "" == pairs.getD i "")

/-- `remainingList`: the candidate pool of the current prize under the
currently revealed pairs. -/
def remainingList (s : EngineState) : List Participant :=
  let pool := eligibleForCurrent s
  if s.revealStep > 0 then
    pool.filter (fun p => prefixMatches (phoneToPairs10 p.phoneNorm) s.revealedPairs s.revealStep)
  else pool

/-- `groupNames`: the distinct prize group names in first-occurrence order
(`Set` iteration order in the source). -/
def groupNames (s : EngineState) : List String :=
  s.prizes.foldl (fun acc pz => if acc.contains pz.group then acc else acc ++ [pz.group]) []

/-- `activeGroupPrizes`: the prizes of the selected group, in configured
order; empty outside group mode. -/
def activeGroupPrizes (s : EngineState) : List Prize :=
  if !s.groupMode then [] else s.prizes.filter (fun pz => pz.group == s.selectedGroup)

/-- The per-prize pool used by `groupRemaining`: tier-eligible deduplicated
participants with no assignment anywhere, restricted by the prize's own
card prefix when it has revealed steps. -/
def groupPoolFor (s : EngineState) (pz : Prize) : List Participant :=
  let pool0 :=
    (dedupedParticipants s).filter
      (fun p => pz.eligible.contains p.tier && !((winnersSet s).contains p.id))
  match alookup s.groupRevealByPrizeId pz.id with
  | some r =>
      if r.step > 0 then
        pool0.filter (fun p => prefixMatches (phoneToPairs10 p.phoneNorm) r.pairs r.step)
      else pool0
  | none => pool0

/-- `groupRemaining`: union, without duplicates, of the per-prize pools of
the active group prizes that have no winner yet, each restricted by that
card's own revealed pairs. -/
def groupRemaining (s : EngineState) : List Participant :=
  if !s.groupMode then []
  else
    ((activeGroupPrizes s).foldl
      (fun (acc : List Participant × List Nat) pz =>
        if winnerTruthy s.winnersByPrizeId pz.id then acc
        else
          (groupPoolFor s pz).foldl
            (fun acc2 p =>
              if acc2.2.contains p.id then acc2 else (acc2.1 ++ [p], acc2.2 ++ [p.id]))
            acc)
      (([], []) : List Participant × List Nat)).1

/-- The scope component of `prfForStep`: `GROUP:<selectedGroup>` in group
mode, otherwise the current prize id (with the source's `|| 'NOPRIZE'`
fallback for a missing or empty id). -/
def prfScope (s : EngineState) : String :=
  if s.groupMode then "GROUP:" ++ s.selectedGroup
  else
    match currentPrize s with
    | some cp => if cp.id == "" then "NOPRIZE" else cp.id
    | none => "NOPRIZE"

/-- The key string hashed by `prfForStep`:
`` `${seedText}|${scope}|step:${step}|prefix:${revealedPairs.join('')}|${extra}` ``. -/
def prfBase (s : EngineState) (step : Nat) (extra : String) : String :=
  s.seedText ++ "|" ++ prfScope s ++ "|step:" ++ toString step ++ "|prefix:" ++
    String.join s.revealedPairs ++ "|" ++ extra

/-- The 32-bit seed `prfForStep` feeds to mulberry32. -/
def prfSeed (s : EngineState) (step : Nat) (extra : String) : Nat :=
  hashStringToInt32 (prfBase s step extra)

/-- `counts[pair] = (counts[pair] || 0) + 1` on a map recorded in insertion
order (the `Object.entries` enumeration order is applied afterwards by
`jsEntriesOrder`). -/
def bumpCount (cs : List (String × Nat)) (k : String) : List (String × Nat) :=
  match cs with
  | [] => [(k, 1)]
  | (k2, c) :: rest => if k2 == k then (k2, c + 1) :: rest else (k2, c) :: bumpCount rest k

/-- The value of a digit string read as a decimal number. -/
def digitsToNat (l : List Char) : Nat :=
  l.foldl (fun n c => n * 10 + (c.toNat - 48)) 0

/-- The ECMAScript canonical-array-index test for a property key: a
nonempty all-digit string without a leading zero (except `"0"` itself)
whose value is below `2^32 - 1`.  Among two-digit pair values this accepts
exactly `"10"` through `"99"`. -/
def jsArrayIndex? (s : String) : Option Nat :=
  match s.data with
  | [] => none
  | c :: rest =>
      if (c :: rest).all Char.isDigit && (c ≠ '0' || rest = []) then
        if digitsToNat (c :: rest) < 4294967295 then some (digitsToNat (c :: rest)) else none
      else none

/-- Insert one entry into a run of array-index-keyed entries, keeping
ascending numeric key order (keys of one object are distinct, so ties do
not arise). -/
def insertIdxEntry {α : Type} (kv : String × α) : List (String × α) → List (String × α)
  | [] => [kv]
  | kv2 :: rest =>
      if (jsArrayIndex? kv.1).getD 0 < (jsArrayIndex? kv2.1).getD 0 then kv :: kv2 :: rest
      else kv2 :: insertIdxEntry kv rest

/-- The `Object.entries` / `Object.keys` enumeration order of ECMAScript
(OrdinaryOwnPropertyKeys): keys that are canonical array indices come
first in ascending numeric order, then the remaining string keys in
insertion order. -/
def jsEntriesOrder {α : Type} (cs : List (String × α)) : List (String × α) :=
  (cs.filter (fun kv => (jsArrayIndex? kv.1).isSome)).foldr insertIdxEntry [] ++
    cs.filter (fun kv => !(jsArrayIndex? kv.1).isSome)

/-- The per-pair-value occurrence counts of a pool at a given step index,
keyed in first-occurrence (insertion) order.  This records the object's
contents; `Object.entries` does not enumerate it in this order. -/
def countsRaw (pool : List Participant) (step : Nat) : List (String × Nat) :=
  pool.foldl (fun cs p => bumpCount cs ((phoneToPairs10 p.phoneNorm).getD step "")) []

/-- The per-pair-value occurrence counts of a pool at a given step index as
`Object.entries(counts)` yields them: pair values `"10"`–`"99"` (canonical
array indices) in ascending numeric order first, then the leading-zero pair
values in insertion order. -/
def countsFor (pool : List Participant) (step : Nat) : List (String × Nat) :=
  jsEntriesOrder (countsRaw pool step)

/-- The source's subtract-and-test loop
`for ([pair, c]) if ((r -= c) <= 0) return pair`, with the float sample
`rng() * total` and the integer counts both scaled by 2^32. -/
def weightedScan : List (String × Nat) → Int → Option String
  | [], _ => none
  | (p, c) :: rest, r =>
      let r2 : Int := r - (c : Int) * (u32Mod : Int)
      if r2 ≤ 0 then some p else weightedScan rest r2

/-- The committed pair for a nonempty `entries` list: the scan result, or
the source's `entries[entries.length - 1][0]` fallback when the loop runs
out (unreachable for a sample below the total). -/
def weightedChoose (entries : List (String × Nat)) (k total : Nat) : String :=
  match weightedScan entries ((k : Int) * (total : Int)) with
  | some p => p
  | none => ((entries.getLast?).map Prod.fst).getD ""

/-- `pickNextPairWeighted` from the source. -/
def pickNextPairWeighted (s : EngineState) : Option String :=
  if s.groupMode && (activeGroupPrizes s).isEmpty then none
  else if !s.groupMode && (currentPrize s).isNone then none
  else if s.revealStep ≥ 5 then none
  else
    let pool := if s.groupMode then groupRemaining s else remainingList s
    let entries := countsFor pool s.revealStep
    if entries.isEmpty then none
    else
      let total := (entries.map Prod.snd).sum
      let k := mulberry32Out (prfSeed s (s.revealStep + 1) "")
      some (weightedChoose entries k total)

/-- The first value the cosmetic single-mode spin interval displays:
`Math.floor(rngAnim() * 100)` zero-padded, with
`rngAnim = prfForStep(revealStep + 1, 'anim')`. -/
def animValue (s : EngineState) : String :=
  pad2 (mulberry32Out (prfSeed s (s.revealStep + 1) "anim") * 100 / u32Mod)

/-- The all-placeholder revealed-pairs row. -/
def placeholders : List String := ["--", "--", "--", "--", "--"]

/-- `resetRound`: clear the single-mode reveal state and spin transient. -/
def resetRound (s : EngineState) : EngineState :=
  { s with revealedPairs := placeholders, revealStep := 0, spinValue := "--" }

/-- `resetCurrentGroup`: reset the cards of every prize in the selected
group and delete those prizes' winner assignments. -/
def resetCurrentGroup (s : EngineState) : EngineState :=
  if !s.groupMode then s
  else
    let gps := s.prizes.filter (fun p => p.group == s.selectedGroup)
    { s with
      groupRevealByPrizeId :=
        gps.foldl (fun acc pz => aset acc pz.id freshCard) s.groupRevealByPrizeId
      winnersByPrizeId :=
        gps.foldl (fun w pz => aerase w pz.id) s.winnersByPrizeId }

/-- `Math.max(0, groupNames.indexOf(selectedGroup))`. -/
def jsGroupIdx (s : EngineState) : Nat :=
  ((groupNames s).findIdx? (fun g => g == s.selectedGroup)).getD 0

/-- `nextGroup`: cycle the selected group forwards. -/
def nextGroup (s : EngineState) : EngineState :=
  if !s.groupMode || (groupNames s).isEmpty then s
  else
    { s with selectedGroup := (groupNames s).getD ((jsGroupIdx s + 1) % (groupNames s).length) "" }

/-- `prevGroup`: cycle the selected group backwards. -/
def prevGroup (s : EngineState) : EngineState :=
  if !s.groupMode || (groupNames s).isEmpty then s
  else
    { s with
      selectedGroup :=
        (groupNames s).getD ((jsGroupIdx s + (groupNames s).length - 1) % (groupNames s).length) "" }

/-- `nextPrize`: reset the round and advance the active prize index,
clamped by `Math.min(i + 1, prizes.length - 1)`. -/
def nextPrize (s : EngineState) : EngineState :=
  { resetRound s with
    currentPrizeIndex := min (s.currentPrizeIndex + 1) ((s.prizes.length : Int) - 1) }

/-- `undoLastPrize` from the source: step back one prize when the active
prize has no (truthy) winner, then delete that prize's assignment, set the
index, and reset the round; bail out when the resulting prize slot is
missing or has a falsy id. -/
def undoLastPrize (s : EngineState) : EngineState :=
  let idx0 := s.currentPrizeIndex
  let pid : Option String :=
    (if idx0 < 0 then none else s.prizes[idx0.toNat]?).map Prize.id
  let noWinner : Bool :=
    match pid with
    | none => true
    | some p => !winnerTruthy s.winnersByPrizeId p
  let idx := if noWinner && decide (idx0 > 0) then idx0 - 1 else idx0
  match (if idx < 0 then none else s.prizes[idx.toNat]?) with
  | none => s
  | some pz2 =>
      if pz2.id == "" then s
      else
        { resetRound s with
          winnersByPrizeId := aerase s.winnersByPrizeId pz2.id
          currentPrizeIndex := idx }

/-- The auto-finish effect: in single-prize mode with an unassigned current
prize, when exactly one candidate remains under the current pairs and the
reveal is not complete, fill the pairs from that candidate's phone key,
jump to step 5, and commit the candidate as the winner. -/
def autoFinish (s : EngineState) : EngineState :=
  if s.groupMode then s
  else
    match currentPrize s with
    | none => s
    | some cp =>
        if winnerTruthy s.winnersByPrizeId cp.id then s
        else
          match remainingList s with
          | [only] =>
              if s.revealStep < 5 then
                { s with
                  revealedPairs := phoneToPairs10 only.phoneNorm
                  revealStep := 5
                  winnersByPrizeId := aset s.winnersByPrizeId cp.id only.id }
              else s
          | _ => s

/-- The result of a single-mode draw: the new state plus the operator
alert, if any (`alert(...)` in the source). -/
structure DrawResult where
  state : EngineState
  alert : Option String
deriving DecidableEq, Repr

/-- The single-prize-mode part of `drawFlash`.  The spin animation between
the eager computation of `chosen` and the timeout that locks it in is
cosmetic; the committed transition applied here is the timeout body.  The
`if (!chosen)` failure guard of the source also fires on an empty-string
pair value, which JavaScript treats as falsy. -/
def drawFlashSingle (s : EngineState) : DrawResult :=
  match currentPrize s with
  | none => ⟨s, none⟩
  | some cp =>
      if cp.id == "" then ⟨s, none⟩
      else if winnerTruthy s.winnersByPrizeId cp.id then ⟨s, none⟩
      else if (remainingList s).length == 1 then ⟨s, none⟩
      else
        match pickNextPairWeighted s with
        | none =>
            ⟨s, some "No candidates match the current prefix. Check your list and prize eligibility."⟩
        | some chosen =>
            if chosen == "" then
              ⟨s, some "No candidates match the current prefix. Check your list and prize eligibility."⟩
            else
            let next := s.revealedPairs.set s.revealStep chosen
            let ns := s.revealStep + 1
            let s1 :=
              { s with revealedPairs := next, revealStep := ns, spinValue := animValue s }
            if ns ≥ 5 then
              let finalPool :=
                (remainingList s).filter
                  (fun p => prefixMatches (phoneToPairs10 p.phoneNorm) next 5)
              match (finalPool.head?).orElse (fun _ => (remainingList s).head?) with
              | none => ⟨s1, some "No participant matched the final digits - please verify inputs."⟩
              | some w =>
                  ⟨{ s1 with winnersByPrizeId := aset s1.winnersByPrizeId cp.id w.id }, none⟩
            else ⟨s1, none⟩

/-- The key string of a group-tick per-prize stream:
`` `${seedText}|PRIZE:${pz.id}|step:${r0.step}|prefix:${r0.pairs.slice(0, r0.step).join('')}` ``. -/
def groupPrfBase (seedText pzId : String) (step : Nat) (pairs : List String) : String :=
  seedText ++ "|PRIZE:" ++ pzId ++ "|step:" ++ toString step ++ "|prefix:" ++
    String.join (pairs.take step)

/-- The key string of the group-tick empty-pool fallback stream:
`` `${seedText}|PRIZE:${pz.id}|step:${r0.step}|fallback` ``. -/
def groupFallbackBase (seedText pzId : String) (step : Nat) : String :=
  seedText ++ "|PRIZE:" ++ pzId ++ "|step:" ++ toString step ++ "|fallback"

/-- The pair a group tick commits for one prize: the weighted pick from the
prize's own scope-qualified stream, or a uniform two-digit fallback from
the fallback stream when the prize's sub-pool is empty. -/
def groupChosenPair (seedText : String) (pz : Prize) (r0 : CardReveal)
    (pool : List Participant) : String :=
  let entries := countsFor pool r0.step
  if entries.isEmpty then
    pad2 (mulberry32Out (hashStringToInt32 (groupFallbackBase seedText pz.id r0.step)) * 100 / u32Mod)
  else
    let total := (entries.map Prod.snd).sum
    let k := mulberry32Out (hashStringToInt32 (groupPrfBase seedText pz.id r0.step r0.pairs))
    weightedChoose entries k total

/-- One prize's slot of the group-tick advance loop (lines building
`nextReveals` in the source). -/
def groupAdvanceStep (s : EngineState) (usedGlobal : List Nat)
    (acc : List (String × CardReveal)) (pz : Prize) : List (String × CardReveal) :=
  if winnerTruthy s.winnersByPrizeId pz.id then acc
  else
    let r0 := (alookup acc pz.id).getD freshCard
    if r0.done || decide (r0.step ≥ 5) then acc
    else
      let pool0 :=
        (dedupedParticipants s).filter
          (fun p => pz.eligible.contains p.tier && !(usedGlobal.contains p.id))
      let pool :=
        if r0.step > 0 then
          pool0.filter (fun p => prefixMatches (phoneToPairs10 p.phoneNorm) r0.pairs r0.step)
        else pool0
      let chosen := groupChosenPair s.seedText pz r0 pool
      aset acc pz.id
        { pairs := r0.pairs.set r0.step chosen, step := r0.step + 1, done := false
          spin := none, spinning := false }

/-- The whole group-tick advance loop: every not-yet-done prize of the
group is advanced by one pair against the global exclusion set read at the
start of the tick. -/
def groupTickAdvance (s : EngineState) : List (String × CardReveal) :=
  (activeGroupPrizes s).foldl
    (groupAdvanceStep s (avalues s.winnersByPrizeId)) s.groupRevealByPrizeId

/-- Accumulator of the group-tick finalize loop: the reveal records, the
winner updates of this tick, and the growing used-participant set. -/
structure GroupFinAcc where
  reveals : List (String × CardReveal)
  updates : List (String × Nat)
  used : List Nat
deriving DecidableEq, Repr

/-- The pool a finalizing prize resolves its winner from: tier-eligible
deduplicated participants excluded by the used set (which includes this
tick's earlier commitments) and matching all five revealed pairs. -/
def groupFinPool (s : EngineState) (used : List Nat) (pz : Prize) (r : CardReveal) :
    List Participant :=
  ((dedupedParticipants s).filter
      (fun p => pz.eligible.contains p.tier && !(used.contains p.id))).filter
    (fun p => prefixMatches (phoneToPairs10 p.phoneNorm) r.pairs 5)

/-- One prize's slot of the group-tick finalize loop: a card that reached
step 5 resolves to the first member of its pool (recomputed against the
used set that includes this tick's earlier commitments) matching all five
pairs, and is marked done. -/
def groupFinStep (s : EngineState) (acc : GroupFinAcc) (pz : Prize) : GroupFinAcc :=
  match alookup acc.reveals pz.id with
  | none => acc
  | some r =>
      if decide (r.step < 5) || r.done || winnerTruthy s.winnersByPrizeId pz.id then acc
      else
        match (groupFinPool s acc.used pz r).head? with
        | none => acc
        | some w =>
            { reveals := aset acc.reveals pz.id { r with done := true }
              updates := acc.updates ++ [(pz.id, w.id)]
              used := acc.used ++ [w.id] }

/-- The whole group-tick finalize loop over the advanced reveal records. -/
def groupTickFinalize (s : EngineState) (reveals0 : List (String × CardReveal)) : GroupFinAcc :=
  (activeGroupPrizes s).foldl (groupFinStep s)
    ⟨reveals0, [], avalues s.winnersByPrizeId⟩

/-- The spin-start pass of a group draw (cosmetic): mark every in-play card
as spinning. -/
def startSpins (s : EngineState) : List (String × CardReveal) :=
  (activeGroupPrizes s).foldl
    (fun acc pz =>
      if winnerTruthy s.winnersByPrizeId pz.id then acc
      else
        let r := (alookup acc pz.id).getD freshCard
        if r.done || decide (r.step ≥ 5) then acc
        else aset acc pz.id { r with spinning := true, spin := some (r.spin.getD "--") })
    s.groupRevealByPrizeId

/-- One firing of the cosmetic 50 ms group spin interval: every spinning
card shows a fresh externally random two-digit value (the `spin` oracle
argument stands for `Math.random`). -/
def spinIntervalTick (spin : String) (rs : List (String × CardReveal)) :
    List (String × CardReveal) :=
  rs.map (fun kv => (kv.1, if kv.2.spinning then { kv.2 with spin := some spin } else kv.2))

/-- The group-mode part of `drawFlash`.  The spin transient is written and
then wholly replaced by the timeout body, which recomputes `nextReveals`
from the state captured before the spin started. -/
def drawFlashGroup (spin : String) (s : EngineState) : EngineState :=
  if (activeGroupPrizes s).isEmpty then s
  else
    let afterSpin := spinIntervalTick spin (startSpins s)
    let sSpin := { s with groupRevealByPrizeId := afterSpin }
    let fin := groupTickFinalize s (groupTickAdvance s)
    { sSpin with
      groupRevealByPrizeId := fin.reveals
      winnersByPrizeId :=
        if fin.updates.isEmpty then s.winnersByPrizeId
        else fin.updates.foldl (fun w kv => aset w kv.1 kv.2) s.winnersByPrizeId }

/-- The operator command surface (§6 of the spec): the keyboard / button
actions wired to the engine, plus the auto-finish effect tick. -/
inductive Cmd where
  | draw
  | next
  | undo
  | reset
  | prevG
  | autoTick
  | setGroupMode (b : Bool)
  | selectGroup (g : String)
deriving DecidableEq, Repr

/-- The effect keeping a reveal record for each active group prize and
discarding stale ones (the `groupMode`/`activeGroupPrizes` effect). -/
def syncGroupReveal (s : EngineState) : EngineState :=
  if !s.groupMode then s
  else
    { s with
      groupRevealByPrizeId :=
        (activeGroupPrizes s).map
          (fun pz => (pz.id, (alookup s.groupRevealByPrizeId pz.id).getD freshCard)) }

/-- One operator command applied to the state, dispatching per mode exactly
as the key handler does.  `spin` is the external animation entropy
(`Math.random`-driven group spin digits); it reaches only cosmetic
transients.  The alert of a failed single draw is surfaced to the operator
and does not enter the state. -/
def stepCmd (spin : String) (c : Cmd) (s : EngineState) : EngineState :=
  match c with
  | .draw => if s.groupMode then drawFlashGroup spin s else (drawFlashSingle s).state
  | .next => if s.groupMode then nextGroup s else nextPrize s
  | .undo => if s.groupMode then s else undoLastPrize s
  | .reset => if s.groupMode then resetCurrentGroup s else resetRound s
  | .prevG => if s.groupMode then prevGroup s else s
  | .autoTick => autoFinish s
  | .setGroupMode b => syncGroupReveal { s with groupMode := b }
  | .selectGroup g => syncGroupReveal { s with selectedGroup := g }

/-- Run a command sequence, consuming one oracle value per command;
returns the final state. -/
def runCmds (spins : List String) (cmds : List Cmd) (s : EngineState) : EngineState :=
  match cmds with
  | [] => s
  | c :: rest => runCmds spins.tail rest (stepCmd (spins.headD "--") c s)

/-- Run a command sequence and collect the state after every step. -/
def runTrace (spins : List String) (cmds : List Cmd) (s : EngineState) : List EngineState :=
  match cmds with
  | [] => []
  | c :: rest =>
      let s2 := stepCmd (spins.headD "--") c s
      s2 :: runTrace spins.tail rest s2

/-- The state of a freshly configured round: data loaded, first prize
active, no winners, single-prize mode, reveal cleared. -/
def initState (ps : List Participant) (pzs : List Prize) (seed : String) : EngineState :=
  { participants := ps, prizes := pzs, currentPrizeIndex := 0, winnersByPrizeId := []
    groupMode := false, selectedGroup := "", groupRevealByPrizeId := []
    revealedPairs := placeholders, revealStep := 0, spinValue := "--", seedText := seed }

/-! ### Association-map lemmas -/

theorem alookup_aset_self {α : Type} (w : List (String × α)) (k : String) (v : α) :
    alookup (aset w k v) k = some v := by
  induction w with
  | nil => simp [aset, alookup]
  | cons kv rest ih =>
      obtain ⟨k2, v2⟩ := kv
      by_cases h : k2 = k
      · subst h; simp [aset, alookup]
      · simp only [aset, alookup, beq_iff_eq, if_neg h]
        exact ih

theorem alookup_aset_ne {α : Type} (w : List (String × α)) (k k' : String) (v : α)
    (h : k' ≠ k) : alookup (aset w k v) k' = alookup w k' := by
  induction w with
  | nil => simp [aset, alookup, beq_iff_eq, Ne.symm h]
  | cons kv rest ih =>
      obtain ⟨k2, v2⟩ := kv
      by_cases h2 : k2 = k
      · subst h2
        simp [aset, alookup, beq_iff_eq, Ne.symm h]
      · simp only [aset, alookup, beq_iff_eq, if_neg h2]
        by_cases h3 : k2 = k'
        · simp [h3]
        · simp [h3, ih]

theorem alookup_aerase_self {α : Type} (w : List (String × α)) (k : String) :
    alookup (aerase w k) k = none := by
  induction w with
  | nil => simp [aerase, alookup]
  | cons kv rest ih =>
      obtain ⟨k2, v2⟩ := kv
      by_cases h : k2 = k
      · subst h; simpa [aerase, List.filter_cons] using ih
      · simpa [aerase, alookup, List.filter_cons, h, beq_iff_eq] using ih

theorem alookup_aerase_ne {α : Type} (w : List (String × α)) (k k' : String)
    (h : k' ≠ k) : alookup (aerase w k) k' = alookup w k' := by
  induction w with
  | nil => simp [aerase, alookup]
  | cons kv rest ih =>
      obtain ⟨k2, v2⟩ := kv
      by_cases h2 : k2 = k
      · subst h2
        simpa [aerase, alookup, List.filter_cons, beq_iff_eq, Ne.symm h] using ih
      · by_cases h3 : k2 = k'
        · simp [aerase, alookup, List.filter_cons, beq_iff_eq, h2, h3, h]
        · simpa [aerase, alookup, List.filter_cons, beq_iff_eq, h2, h3] using ih

theorem aerase_of_lookup_none {α : Type} (w : List (String × α)) (k : String)
    (h : alookup w k = none) : aerase w k = w := by
  induction w with
  | nil => rfl
  | cons kv rest ih =>
      obtain ⟨k2, v2⟩ := kv
      by_cases h2 : k2 = k
      · subst h2; simp [alookup] at h
      · simp only [alookup, beq_iff_eq, if_neg h2] at h
        simp [aerase, List.filter_cons, beq_iff_eq, h2] at ih ⊢
        exact ih h

/-! ### C10: nextPrize index clamping -/

/-- C10: with an empty prize list `nextPrize` drives the active index to
`-1`; with a non-empty prize list it keeps an in-range-or-`-1` index inside
`[0, prizes.length - 1]`, and it resets the reveal state either way. -/
theorem nextPrize_clamps_index (s : EngineState) (h : -1 ≤ s.currentPrizeIndex) :
    (s.prizes = [] → (nextPrize s).currentPrizeIndex = -1) ∧
    (s.prizes ≠ [] →
      0 ≤ (nextPrize s).currentPrizeIndex ∧
        (nextPrize s).currentPrizeIndex < ((nextPrize s).prizes.length : Int)) ∧
    (nextPrize s).revealStep = 0 ∧ (nextPrize s).revealedPairs = placeholders := by
  refine ⟨fun he => ?_, fun hne => ?_, rfl, rfl⟩
  · show min (s.currentPrizeIndex + 1) ((s.prizes.length : Int) - 1) = -1
    rw [he]
    simp only [List.length_nil, Int.natCast_zero]
    omega
  · have hlen : 1 ≤ s.prizes.length := List.length_pos.mpr hne
    show 0 ≤ min (s.currentPrizeIndex + 1) ((s.prizes.length : Int) - 1) ∧
      min (s.currentPrizeIndex + 1) ((s.prizes.length : Int) - 1) < (s.prizes.length : Int)
    omega

/-- Witness for C10 at a concrete state. -/
theorem nextPrize_clamps_index_witness :
    (nextPrize (initState [] [] "7")).currentPrizeIndex = -1 ∧
      (nextPrize (initState [] [] "7")).revealStep = 0 := by
  have h := nextPrize_clamps_index (initState [] [] "7") (by decide)
  exact ⟨h.1 rfl, h.2.2.1⟩

/-! ### C8: what reset does to the winners map -/

theorem alookup_foldl_aerase_not {α : Type} (gps : List Prize) (w : List (String × α))
    (k : String) (h : ∀ pz ∈ gps, pz.id ≠ k) :
    alookup (gps.foldl (fun w2 pz => aerase w2 pz.id) w) k = alookup w k := by
  induction gps generalizing w with
  | nil => rfl
  | cons pz rest ih =>
      simp only [List.foldl_cons]
      rw [ih _ (fun q hq => h q (List.mem_cons_of_mem _ hq))]
      exact alookup_aerase_ne _ _ _ (fun he => h pz (List.mem_cons_self _ _) he.symm)

theorem alookup_foldl_aerase_mem {α : Type} (gps : List Prize) (w : List (String × α))
    (k : String) (h : ∃ pz ∈ gps, pz.id = k) :
    alookup (gps.foldl (fun w2 pz => aerase w2 pz.id) w) k = none := by
  induction gps generalizing w with
  | nil => simp at h
  | cons pz rest ih =>
      simp only [List.foldl_cons]
      rcases h with ⟨q, hq, hk⟩
      rcases List.mem_cons.mp hq with he | hr
      · subst he
        by_cases hrest : ∃ r ∈ rest, r.id = k
        · exact ih _ hrest
        · push_neg at hrest
          rw [alookup_foldl_aerase_not rest _ k hrest, hk]
          exact alookup_aerase_self _ _
      · exact ih _ ⟨q, hr, hk⟩

/-- Concrete group-mode state with a winner assigned inside the selected
group (prize `P1`) and a winner outside it (prize `Q1`). -/
def resetCexState : EngineState :=
  { participants := [⟨1, "A", "0911222222", Tier.T1⟩, ⟨2, "B", "0922333333", Tier.T1⟩]
    prizes := [⟨"P1", "Prize 1", "", "Grand", [Tier.T1]⟩, ⟨"Q1", "Prize Q", "", "Major", [Tier.T1]⟩]
    currentPrizeIndex := 0
    winnersByPrizeId := [("P1", 1), ("Q1", 2)]
    groupMode := true, selectedGroup := "Grand", groupRevealByPrizeId := []
    revealedPairs := placeholders, revealStep := 0, spinValue := "--", seedText := "42" }

/-- C8 counterexample: the group-mode reset command removes the winner
assignment of prize `P1` of the selected group, so reset does un-assign a
winner. -/
theorem reset_group_unassigns_winner_cex :
    alookup resetCexState.winnersByPrizeId "P1" = some 1 ∧
      alookup (stepCmd "--" Cmd.reset resetCexState).winnersByPrizeId "P1" = none := by
  decide

/-- C8 amended: single-mode `resetRound` leaves the winners map untouched
and clears the reveal state; group-mode `resetCurrentGroup` removes exactly
the selected group's prizes' assignments, leaving every other key of the
winners map unchanged. -/
theorem reset_winner_frame (s : EngineState) :
    (resetRound s).winnersByPrizeId = s.winnersByPrizeId ∧
    (resetRound s).revealStep = 0 ∧ (resetRound s).revealedPairs = placeholders ∧
    (∀ k, (∀ pz ∈ s.prizes, pz.group = s.selectedGroup → pz.id ≠ k) →
        alookup (resetCurrentGroup s).winnersByPrizeId k = alookup s.winnersByPrizeId k) ∧
    (s.groupMode = true → ∀ pz ∈ s.prizes, pz.group = s.selectedGroup →
        alookup (resetCurrentGroup s).winnersByPrizeId pz.id = none) := by
  refine ⟨rfl, rfl, rfl, fun k hk => ?_, fun hg pz hpz hgrp => ?_⟩
  · by_cases hgm : s.groupMode
    · simp only [resetCurrentGroup, hgm, Bool.not_true, Bool.false_eq_true, if_false]
      exact alookup_foldl_aerase_not _ _ _ (fun q hq =>
        hk q (List.mem_of_mem_filter hq) (by simpa using (List.mem_filter.mp hq).2))
    · simp [resetCurrentGroup, hgm]
  · simp only [resetCurrentGroup, hg, Bool.not_true, Bool.false_eq_true, if_false]
    exact alookup_foldl_aerase_mem _ _ _
      ⟨pz, List.mem_filter.mpr ⟨hpz, by simpa using hgrp⟩, rfl⟩

/-- Witness for C8 at the concrete state above: the out-of-group key `Q1`
is preserved and the in-group key `P1` is removed. -/
theorem reset_winner_frame_witness :
    alookup (resetCurrentGroup resetCexState).winnersByPrizeId "Q1" =
        alookup resetCexState.winnersByPrizeId "Q1" ∧
      alookup (resetCurrentGroup resetCexState).winnersByPrizeId "P1" = none :=
  ⟨(reset_winner_frame resetCexState).2.2.2.1 "Q1" (by decide),
   (reset_winner_frame resetCexState).2.2.2.2 (by decide)
     ⟨"P1", "Prize 1", "", "Grand", [Tier.T1]⟩ (by decide) (by decide)⟩

/-! ### C7: undoLastPrize at the first prize and with a prior prize -/

/-- Concrete single-mode state at the first prize, no winner, one pair
already revealed. -/
def undoCexState : EngineState :=
  { participants := [⟨1, "A", "0911222222", Tier.T1⟩]
    prizes := [⟨"P1", "Prize 1", "", "Grand", [Tier.T1]⟩]
    currentPrizeIndex := 0, winnersByPrizeId := []
    groupMode := false, selectedGroup := "", groupRevealByPrizeId := []
    revealedPairs := ["09", "--", "--", "--", "--"], revealStep := 1
    spinValue := "--", seedText := "42" }

/-- C7 counterexample: at the first prize with no winner and one pair
already revealed, `undoLastPrize` is not a no-op — it resets the reveal
state to step 0 and placeholders. -/
theorem undo_first_prize_not_noop :
    undoCexState.currentPrizeIndex = 0 ∧
    alookup undoCexState.winnersByPrizeId "P1" = none ∧
    undoCexState.revealStep = 1 ∧
    (undoLastPrize undoCexState).revealStep = 0 ∧
    (undoLastPrize undoCexState).revealedPairs ≠ undoCexState.revealedPairs := by
  decide

/-- C7 amended: at the first prize with no winner, `undoLastPrize` leaves
the winners map and the active index unchanged but resets the reveal state
(step 0, all placeholders); when the active prize has no winner and a prior
prize exists, it steps back to the prior prize, removes exactly that
prize's assignment, and resets the reveal state. -/
theorem undoLastPrize_behaviour (s : EngineState) (cp : Prize)
    (hcp : currentPrize s = some cp) (hid : cp.id ≠ "")
    (hw : alookup s.winnersByPrizeId cp.id = none) :
    (s.currentPrizeIndex = 0 →
      (undoLastPrize s).winnersByPrizeId = s.winnersByPrizeId ∧
      (undoLastPrize s).currentPrizeIndex = 0 ∧
      (undoLastPrize s).revealStep = 0 ∧
      (undoLastPrize s).revealedPairs = placeholders) ∧
    (∀ pzPrev : Prize, 0 < s.currentPrizeIndex →
      s.prizes[(s.currentPrizeIndex - 1).toNat]? = some pzPrev →
      pzPrev.id ≠ "" →
      (undoLastPrize s).currentPrizeIndex = s.currentPrizeIndex - 1 ∧
      (undoLastPrize s).winnersByPrizeId = aerase s.winnersByPrizeId pzPrev.id ∧
      alookup (undoLastPrize s).winnersByPrizeId pzPrev.id = none ∧
      (∀ k, k ≠ pzPrev.id →
        alookup (undoLastPrize s).winnersByPrizeId k = alookup s.winnersByPrizeId k) ∧
      (undoLastPrize s).revealStep = 0 ∧
      (undoLastPrize s).revealedPairs = placeholders) := by
  have hwt : winnerTruthy s.winnersByPrizeId cp.id = false := by
    simp [winnerTruthy, hw]
  have hbcp : (cp.id == "") = false := by simpa [beq_iff_eq] using hid
  constructor
  · intro hidx
    have hget : s.prizes[(0 : Nat)]? = some cp := by
      simpa [currentPrize, hidx] using hcp
    have heval : undoLastPrize s =
        { resetRound s with
          winnersByPrizeId := aerase s.winnersByPrizeId cp.id
          currentPrizeIndex := 0 } := by
      simp [undoLastPrize, hwt, hidx, hget, hid]
    rw [heval, aerase_of_lookup_none _ _ hw]
    exact ⟨rfl, rfl, rfl, rfl⟩
  · intro pzPrev hidx hprev hidPrev
    have hif : (if s.currentPrizeIndex < 0 then none else s.prizes[s.currentPrizeIndex.toNat]?) =
        some cp := by simpa [currentPrize] using hcp
    have hprev2 : s.prizes[s.currentPrizeIndex.toNat - 1]? = some pzPrev := by
      have he : (s.currentPrizeIndex - 1).toNat = s.currentPrizeIndex.toNat - 1 := by omega
      rwa [he] at hprev
    have heval : undoLastPrize s =
        { resetRound s with
          winnersByPrizeId := aerase s.winnersByPrizeId pzPrev.id
          currentPrizeIndex := s.currentPrizeIndex - 1 } := by
      simp [undoLastPrize, hif, hwt, hidx]
      rw [if_neg (show ¬s.currentPrizeIndex < 1 by omega), hprev2]
      simp [hidPrev]
    rw [heval]
    exact ⟨rfl, rfl, alookup_aerase_self _ _, fun k hk => alookup_aerase_ne _ _ _ hk, rfl, rfl⟩

/-- Witness for C7's amended statement: the first-prize part at the
concrete state above, and the step-back part at the same state shifted to a
second prize. -/
theorem undoLastPrize_behaviour_witness :
    ((undoLastPrize undoCexState).winnersByPrizeId = undoCexState.winnersByPrizeId ∧
      (undoLastPrize undoCexState).currentPrizeIndex = 0 ∧
      (undoLastPrize undoCexState).revealStep = 0 ∧
      (undoLastPrize undoCexState).revealedPairs = placeholders) :=
  (undoLastPrize_behaviour undoCexState ⟨"P1", "Prize 1", "", "Grand", [Tier.T1]⟩
    (by decide) (by decide) (by decide)).1 (by decide)

/-! ### C6: draw on an empty pool, C4: auto-finish -/

theorem pickNextPairWeighted_empty (s : EngineState) (cp : Prize)
    (hg : s.groupMode = false) (hcp : currentPrize s = some cp)
    (hpool : remainingList s = []) : pickNextPairWeighted s = none := by
  by_cases hstep : s.revealStep ≥ 5
  · simp [pickNextPairWeighted, hg, hcp, hstep]
  · simp [pickNextPairWeighted, hg, hcp, hstep, hpool, countsFor, countsRaw, jsEntriesOrder]

/-- C6: a single-mode draw request with an empty candidate pool fails with
an operator alert and leaves the state — reveal pairs, reveal step, and the
winners map — entirely unchanged. -/
theorem draw_empty_pool_noop (s : EngineState) (cp : Prize)
    (hg : s.groupMode = false) (hcp : currentPrize s = some cp) (hid : cp.id ≠ "")
    (hw : winnerTruthy s.winnersByPrizeId cp.id = false)
    (hpool : remainingList s = []) :
    (drawFlashSingle s).state = s ∧ (drawFlashSingle s).alert.isSome = true := by
  have hpick := pickNextPairWeighted_empty s cp hg hcp hpool
  simp [drawFlashSingle, hcp, hid, hw, hpool, hpick]

/-- Concrete single-mode state whose pool under the current (empty) pairs
is empty: the only participant's tier is not eligible. -/
def emptyPoolState : EngineState :=
  { participants := [⟨1, "A", "0922333333", Tier.T2⟩]
    prizes := [⟨"P1", "Prize 1", "", "Grand", [Tier.T1]⟩]
    currentPrizeIndex := 0, winnersByPrizeId := []
    groupMode := false, selectedGroup := "", groupRevealByPrizeId := []
    revealedPairs := placeholders, revealStep := 0, spinValue := "--", seedText := "42" }

/-- Witness for C6 at the concrete state above. -/
theorem draw_empty_pool_noop_witness :
    (drawFlashSingle emptyPoolState).state = emptyPoolState ∧
      (drawFlashSingle emptyPoolState).alert.isSome = true :=
  draw_empty_pool_noop emptyPoolState ⟨"P1", "Prize 1", "", "Grand", [Tier.T1]⟩
    (by decide) (by decide) (by decide) (by decide) (by decide)

/-- C4: in single-prize mode with an unassigned current prize, a pool of
exactly one candidate, and an incomplete reveal, the auto-finish transition
fills all five pairs from that candidate's phone key, jumps to step 5, and
commits the candidate as the prize's winner; a manual draw in that state
leaves the state unchanged and raises no alert. -/
theorem auto_finish_commits (s : EngineState) (cp : Prize) (only : Participant)
    (hg : s.groupMode = false) (hcp : currentPrize s = some cp)
    (hw : winnerTruthy s.winnersByPrizeId cp.id = false)
    (hpool : remainingList s = [only]) (hstep : s.revealStep < 5) :
    (autoFinish s).revealedPairs = phoneToPairs10 only.phoneNorm ∧
    (autoFinish s).revealStep = 5 ∧
    alookup (autoFinish s).winnersByPrizeId cp.id = some only.id ∧
    (drawFlashSingle s).state = s ∧ (drawFlashSingle s).alert = none := by
  have heval : autoFinish s =
      { s with
        revealedPairs := phoneToPairs10 only.phoneNorm
        revealStep := 5
        winnersByPrizeId := aset s.winnersByPrizeId cp.id only.id } := by
    simp [autoFinish, hg, hcp, hw, hpool, hstep]
  have hdraw : drawFlashSingle s = ⟨s, none⟩ := by
    by_cases hid : cp.id = ""
    · simp [drawFlashSingle, hcp, hid]
    · simp [drawFlashSingle, hcp, hid, hw, hpool]
  rw [heval, hdraw]
  exact ⟨rfl, rfl, alookup_aset_self _ _ _, rfl, rfl⟩

/-- Concrete single-mode state with a one-candidate pool. -/
def autoFinishState : EngineState :=
  { participants := [⟨1, "A", "0911222222", Tier.T1⟩]
    prizes := [⟨"P1", "Prize 1", "", "Grand", [Tier.T1]⟩]
    currentPrizeIndex := 0, winnersByPrizeId := []
    groupMode := false, selectedGroup := "", groupRevealByPrizeId := []
    revealedPairs := placeholders, revealStep := 0, spinValue := "--", seedText := "42" }

/-- Witness for C4 at the concrete state above. -/
theorem auto_finish_commits_witness :
    (autoFinish autoFinishState).revealedPairs = phoneToPairs10 "0911222222" ∧
      (autoFinish autoFinishState).revealStep = 5 ∧
      alookup (autoFinish autoFinishState).winnersByPrizeId "P1" = some 1 ∧
      (drawFlashSingle autoFinishState).state = autoFinishState ∧
      (drawFlashSingle autoFinishState).alert = none :=
  auto_finish_commits autoFinishState ⟨"P1", "Prize 1", "", "Grand", [Tier.T1]⟩
    ⟨1, "A", "0911222222", Tier.T1⟩ (by decide) (by decide) (by decide) (by decide) (by decide)

/-! ### C1: determinism / independence of external animation entropy -/

theorem stepCmd_oracle_irrelevant (a b : String) (c : Cmd) (s : EngineState) :
    stepCmd a c s = stepCmd b c s := by
  cases c <;> rfl

/-- C1: two runs of the engine from the same state, with the same seed,
data, and operator command sequence, but arbitrary (different) external
animation entropy, produce identical state traces — in particular identical
winners maps and identical revealed pairs and reveal steps after every
command.  The committed selections are computed only from the mulberry32
streams seeded by the FNV-1a hashes of the key strings, which depend only
on the state. -/
theorem run_deterministic (spins1 spins2 : List String) (cmds : List Cmd)
    (s : EngineState) : runTrace spins1 cmds s = runTrace spins2 cmds s := by
  induction cmds generalizing s spins1 spins2 with
  | nil => rfl
  | cons c rest ih =>
      simp only [runTrace]
      rw [stepCmd_oracle_irrelevant (spins1.headD "--") (spins2.headD "--") c s]
      exact congrArg _ (ih _ _ _)

/-! ### C5: the weighted pair selection matches the spec's cumulative rule -/

theorem bumpCount_ne_nil (cs : List (String × Nat)) (k : String) : bumpCount cs k ≠ [] := by
  cases cs with
  | nil => simp [bumpCount]
  | cons kv rest =>
      obtain ⟨k2, c⟩ := kv
      by_cases h : k2 = k <;> simp [bumpCount, h]

theorem countsRaw_ne_nil (pool : List Participant) (st : Nat) (h : pool ≠ []) :
    countsRaw pool st ≠ [] := by
  have main : ∀ (l : List Participant) (cs : List (String × Nat)), cs ≠ [] →
      l.foldl (fun cs2 p => bumpCount cs2 ((phoneToPairs10 p.phoneNorm).getD st "")) cs ≠ [] := by
    intro l
    induction l with
    | nil => intro cs hcs; simpa using hcs
    | cons q rest ih =>
        intro cs _
        simpa using ih _ (bumpCount_ne_nil cs _)
  cases pool with
  | nil => exact absurd rfl h
  | cons q rest =>
      simpa [countsRaw] using main rest _ (bumpCount_ne_nil [] _)

theorem insertIdxEntry_perm {α : Type} (kv : String × α) (l : List (String × α)) :
    (insertIdxEntry kv l).Perm (kv :: l) := by
  induction l with
  | nil => exact List.Perm.refl _
  | cons kv2 rest ih =>
      unfold insertIdxEntry
      split
      · exact List.Perm.refl _
      · exact (ih.cons kv2).trans (List.Perm.swap kv kv2 rest)

theorem sortIdxEntries_perm {α : Type} (l : List (String × α)) :
    (l.foldr insertIdxEntry []).Perm l := by
  induction l with
  | nil => exact List.Perm.refl _
  | cons kv rest ih =>
      simpa using (insertIdxEntry_perm kv _).trans (ih.cons kv)

/-- The enumeration order is a permutation of the recorded entries. -/
theorem jsEntriesOrder_perm {α : Type} (cs : List (String × α)) :
    (jsEntriesOrder cs).Perm cs := by
  unfold jsEntriesOrder
  exact ((sortIdxEntries_perm _).append (List.Perm.refl _)).trans
    (List.filter_append_perm _ cs)

theorem countsFor_ne_nil (pool : List Participant) (st : Nat) (h : pool ≠ []) :
    countsFor pool st ≠ [] := by
  intro hc
  have hlen := (jsEntriesOrder_perm (countsRaw pool st)).length_eq
  rw [show jsEntriesOrder (countsRaw pool st) = countsFor pool st from rfl, hc] at hlen
  exact countsRaw_ne_nil pool st h (List.length_eq_zero.mp hlen.symm)

theorem sum_bumpCount (cs : List (String × Nat)) (k : String) :
    ((bumpCount cs k).map Prod.snd).sum = ((cs.map Prod.snd).sum) + 1 := by
  induction cs with
  | nil => simp [bumpCount]
  | cons kv rest ih =>
      obtain ⟨k2, c⟩ := kv
      by_cases h : k2 = k
      · simp [bumpCount, h]; omega
      · simp [bumpCount, h, ih]; omega

theorem sum_countsRaw (pool : List Participant) (st : Nat) :
    ((countsRaw pool st).map Prod.snd).sum = pool.length := by
  have main : ∀ (l : List Participant) (cs : List (String × Nat)),
      (((l.foldl (fun cs2 p => bumpCount cs2 ((phoneToPairs10 p.phoneNorm).getD st "")) cs)).map
          Prod.snd).sum = (cs.map Prod.snd).sum + l.length := by
    intro l
    induction l with
    | nil => simp
    | cons q rest ih =>
        intro cs
        simp only [List.foldl_cons, List.length_cons, ih, sum_bumpCount]
        omega
  simpa [countsRaw] using main pool []

theorem sum_countsFor (pool : List Participant) (st : Nat) :
    ((countsFor pool st).map Prod.snd).sum = pool.length := by
  rw [show countsFor pool st = jsEntriesOrder (countsRaw pool st) from rfl,
    ((jsEntriesOrder_perm (countsRaw pool st)).map Prod.snd).sum_eq]
  exact sum_countsRaw pool st

theorem mem_keys_bumpCount (cs : List (String × Nat)) (k p : String)
    (h : p ∈ (bumpCount cs k).map Prod.fst) : p ∈ cs.map Prod.fst ∨ p = k := by
  induction cs with
  | nil => simpa [bumpCount] using h
  | cons kv rest ih =>
      obtain ⟨k2, c⟩ := kv
      by_cases he : k2 = k
      · subst he
        exact Or.inl (by simpa [bumpCount] using h)
      · simp only [bumpCount, beq_iff_eq, if_neg he, List.map_cons, List.mem_cons] at h ⊢
        rcases h with h | h
        · exact Or.inl (Or.inl h)
        · rcases ih h with h2 | h2
          · exact Or.inl (Or.inr h2)
          · exact Or.inr h2

theorem mem_keys_countsRaw (pool : List Participant) (st : Nat) (p : String)
    (h : p ∈ (countsRaw pool st).map Prod.fst) :
    ∃ q ∈ pool, (phoneToPairs10 q.phoneNorm).getD st "" = p := by
  have main : ∀ (l : List Participant) (cs : List (String × Nat)),
      p ∈ ((l.foldl (fun cs2 q => bumpCount cs2 ((phoneToPairs10 q.phoneNorm).getD st "")) cs)).map
          Prod.fst →
      p ∈ cs.map Prod.fst ∨ ∃ q ∈ l, (phoneToPairs10 q.phoneNorm).getD st "" = p := by
    intro l
    induction l with
    | nil => intro cs h2; exact Or.inl h2
    | cons q rest ih =>
        intro cs h2
        rcases ih _ h2 with h3 | h3
        · rcases mem_keys_bumpCount _ _ _ h3 with h4 | h4
          · exact Or.inl h4
          · exact Or.inr ⟨q, List.mem_cons_self _ _, h4.symm⟩
        · rcases h3 with ⟨q2, hq2, hk⟩
          exact Or.inr ⟨q2, List.mem_cons_of_mem _ hq2, hk⟩
  rcases main pool [] (by simpa [countsRaw] using h) with h2 | h2
  · simp at h2
  · exact h2

theorem mem_keys_countsFor (pool : List Participant) (st : Nat) (p : String)
    (h : p ∈ (countsFor pool st).map Prod.fst) :
    ∃ q ∈ pool, (phoneToPairs10 q.phoneNorm).getD st "" = p := by
  refine mem_keys_countsRaw pool st p ?_
  exact ((jsEntriesOrder_perm (countsRaw pool st)).map Prod.fst).mem_iff.mp h

theorem weightedScan_mem (entries : List (String × Nat)) (r : Int) (p : String)
    (h : weightedScan entries r = some p) : p ∈ entries.map Prod.fst := by
  induction entries generalizing r with
  | nil => simp [weightedScan] at h
  | cons kv rest ih =>
      obtain ⟨p2, c⟩ := kv
      simp only [weightedScan] at h
      by_cases hle : r - (c : Int) * (u32Mod : Int) ≤ 0
      · simp only [if_pos hle, Option.some.injEq] at h
        simp [h.symm]
      · simp only [if_neg hle] at h
        exact List.mem_cons_of_mem _ (ih _ h)

theorem weightedScan_isSome (entries : List (String × Nat)) (r : Int)
    (hne : entries ≠ [])
    (hr : r ≤ ((entries.map Prod.snd).sum : Int) * (u32Mod : Int)) :
    (weightedScan entries r).isSome = true := by
  induction entries generalizing r with
  | nil => exact absurd rfl hne
  | cons kv rest ih =>
      obtain ⟨p, c⟩ := kv
      simp only [weightedScan]
      by_cases hle : r - (c : Int) * (u32Mod : Int) ≤ 0
      · simp [hle]
      · rw [if_neg hle]
        cases rest with
        | nil =>
            exfalso
            simp only [List.map_cons, List.map_nil, List.sum_cons, List.sum_nil,
              Nat.add_zero] at hr
            exact hle (by linarith)
        | cons kv2 rest2 =>
            refine ih _ (by simp) ?_
            simp only [List.map_cons, List.sum_cons] at hr ⊢
            push_cast at hr ⊢
            ring_nf at hr ⊢
            linarith [hr]

/-- Modelled from the spec (§4.3): iterate the given candidate pair-value
entries in order accumulating the running total, and return the first pair
value whose cumulative count reaches or exceeds the sample (counts scaled
by 2^32 to keep the comparison with the sample exact).  The spec claims the
entries are iterated in insertion order; applied to `countsRaw` this is the
claim's selection rule, applied to `countsFor` it is the enumeration-order
rule the program implements. -/
def specCumulativePickAux (sample : Int) : List (String × Nat) → Int → Option String
  | [], _ => none
  | (p, c) :: rest, acc =>
      let acc2 := acc + (c : Int) * (u32Mod : Int)
      if sample ≤ acc2 then some p else specCumulativePickAux sample rest acc2

/-- Modelled from the spec (§4.3): the first pair value, in the order the
given entries are listed, whose cumulative count reaches or exceeds the
sample. -/
def specCumulativePick (entries : List (String × Nat)) (sample : Int) : Option String :=
  specCumulativePickAux sample entries 0

theorem weightedScan_eq_specAux (entries : List (String × Nat)) (acc sample : Int) :
    weightedScan entries (sample - acc) = specCumulativePickAux sample entries acc := by
  induction entries generalizing acc with
  | nil => rfl
  | cons kv rest ih =>
      obtain ⟨p, c⟩ := kv
      simp only [weightedScan, specCumulativePickAux]
      have he : sample - acc - (c : Int) * (u32Mod : Int) =
          sample - (acc + (c : Int) * (u32Mod : Int)) := by ring
      rw [he]
      by_cases hle : sample ≤ acc + (c : Int) * (u32Mod : Int)
      · rw [if_pos (by omega), if_pos hle]
      · rw [if_neg (by omega), if_neg hle]
        exact ih _

theorem weightedScan_eq_spec (entries : List (String × Nat)) (sample : Int) :
    weightedScan entries sample = specCumulativePick entries sample := by
  have h := weightedScan_eq_specAux entries 0 sample
  simpa [specCumulativePick] using h

/-- The mulberry32 output numerator is a 32-bit value. -/
theorem mulberry32Out_lt (a : Nat) : mulberry32Out a < u32Mod := by
  have hpow : u32Mod = 2 ^ 32 := by norm_num [u32Mod]
  unfold mulberry32Out mulberry32Next
  simp only []
  set a1 := (a + 0x6d2b79f5) % u32Mod with ha1
  set t1 := ((a1 ^^^ (a1 >>> 15)) * (1 ||| a1)) % u32Mod with ht1
  set t2 := ((t1 + ((t1 ^^^ (t1 >>> 7)) * (61 ||| t1)) % u32Mod) % u32Mod) ^^^ t1 with ht2
  have h1 : t1 < 2 ^ 32 := hpow ▸ Nat.mod_lt _ (by norm_num [u32Mod])
  have h2 : t2 < 2 ^ 32 := by
    rw [ht2]
    exact Nat.xor_lt_two_pow (hpow ▸ Nat.mod_lt _ (by norm_num [u32Mod])) h1
  have h3 : t2 >>> 14 < 2 ^ 32 :=
    lt_of_le_of_lt (by simpa [Nat.shiftRight_eq_div_pow] using Nat.div_le_self t2 (2 ^ 14)) h2
  exact hpow ▸ Nat.xor_lt_two_pow h2 h3

/-- Concrete single-mode state for the C5 counterexample: the pool inserts
pair `22` (participant A) before pair `11` (participant B) at step 1, and
the seed makes the PRF sample land in the first cumulative slot. -/
def orderCexState : EngineState :=
  { participants := [⟨1, "A", "0922333333", Tier.T1⟩, ⟨2, "B", "0911222222", Tier.T1⟩]
    prizes := [⟨"P1", "Prize 1", "", "Grand", [Tier.T1]⟩]
    currentPrizeIndex := 0, winnersByPrizeId := []
    groupMode := false, selectedGroup := "", groupRevealByPrizeId := []
    revealedPairs := ["09", "--", "--", "--", "--"], revealStep := 1
    spinValue := "--", seedText := "2" }

/-- C5 counterexample: with counts inserted in the order `22`, `11`,
`Object.entries` enumerates the array-index-like keys numerically, so the
program commits `11`; the claim's "first pair value in insertion order
whose cumulative count reaches or exceeds the sample", evaluated on the
insertion-ordered counts (`countsRaw`) with the same sample, yields `22`. -/
theorem pick_insertion_order_cex :
    pickNextPairWeighted orderCexState = some "11" ∧
      specCumulativePick (countsRaw (remainingList orderCexState) orderCexState.revealStep)
        ((mulberry32Out (prfSeed orderCexState (orderCexState.revealStep + 1) "") : Int) *
          ((remainingList orderCexState).length : Int)) = some "22" ∧
      ("11" : String) ≠ "22" := by
  decide

/-- C5 amended: for a nonempty single-mode candidate pool at a reveal step
below 5, the draw selects exactly the first pair value — in the
`Object.entries` enumeration order: pair values `10`–`99` in ascending
numeric order first, then leading-zero pair values in insertion order —
whose cumulative count reaches or exceeds the single PRF sample scaled to
the total pool count; that pair value is held by at least one pool
member. -/
theorem pick_weighted_matches_spec (s : EngineState) (cp : Prize)
    (hg : s.groupMode = false) (hcp : currentPrize s = some cp)
    (hstep : s.revealStep < 5) (hpool : remainingList s ≠ []) :
    ∃ pr, pickNextPairWeighted s = some pr ∧
      specCumulativePick (countsFor (remainingList s) s.revealStep)
        ((mulberry32Out (prfSeed s (s.revealStep + 1) "") : Int) *
          ((remainingList s).length : Int)) = some pr ∧
      ∃ q ∈ remainingList s, (phoneToPairs10 q.phoneNorm).getD s.revealStep "" = pr := by
  set entries := countsFor (remainingList s) s.revealStep with hentries
  set k := mulberry32Out (prfSeed s (s.revealStep + 1) "") with hkdef
  have hne : entries ≠ [] := countsFor_ne_nil _ _ hpool
  have hsum : ((entries.map Prod.snd).sum : Nat) = (remainingList s).length :=
    sum_countsFor _ _
  have hlenpos : 0 < (remainingList s).length := List.length_pos.mpr hpool
  have hklt : k < u32Mod := mulberry32Out_lt _
  have hsample : ((k : Int) * ((entries.map Prod.snd).sum : Int)) ≤
      ((entries.map Prod.snd).sum : Int) * (u32Mod : Int) := by
    have hsumpos : 0 < ((entries.map Prod.snd).sum : Int) := by
      rw [hsum]; exact_mod_cast hlenpos
    nlinarith [hsumpos, (show (k : Int) < (u32Mod : Int) from by exact_mod_cast hklt)]
  have hscan : (weightedScan entries ((k : Int) * ((entries.map Prod.snd).sum : Int))).isSome =
      true := weightedScan_isSome _ _ hne hsample
  obtain ⟨pr, hpr⟩ := Option.isSome_iff_exists.mp hscan
  refine ⟨pr, ?_, ?_, ?_⟩
  · have hstep2 : ¬s.revealStep ≥ 5 := by omega
    have hcpn : (currentPrize s).isNone = false := by simp [hcp]
    simp only [pickNextPairWeighted, hg, Bool.false_and, Bool.false_eq_true, if_false,
      Bool.not_false, hcpn, Bool.true_and, if_neg hstep2, Bool.and_false]
    rw [if_neg (by simpa [hentries] using hne)]
    simp only [← hentries, ← hkdef, weightedChoose, hpr]
  · rw [← weightedScan_eq_spec, ← hsum]
    exact hpr
  · exact mem_keys_countsFor _ _ _ (weightedScan_mem _ _ _ hpr)

/-- Concrete single-mode state with a two-candidate pool for the C5
witness. -/
def pickWitnessState : EngineState :=
  { participants := [⟨1, "A", "0911222222", Tier.T1⟩, ⟨2, "B", "0922333333", Tier.T1⟩]
    prizes := [⟨"P1", "Prize 1", "", "Grand", [Tier.T1]⟩]
    currentPrizeIndex := 0, winnersByPrizeId := []
    groupMode := false, selectedGroup := "", groupRevealByPrizeId := []
    revealedPairs := ["09", "--", "--", "--", "--"], revealStep := 1
    spinValue := "--", seedText := "42" }

/-- Witness for C5 at the concrete state above. -/
theorem pick_weighted_matches_spec_witness :
    ∃ pr, pickNextPairWeighted pickWitnessState = some pr ∧
      specCumulativePick (countsFor (remainingList pickWitnessState) pickWitnessState.revealStep)
        ((mulberry32Out (prfSeed pickWitnessState (pickWitnessState.revealStep + 1) "") : Int) *
          ((remainingList pickWitnessState).length : Int)) = some pr ∧
      ∃ q ∈ remainingList pickWitnessState,
        (phoneToPairs10 q.phoneNorm).getD pickWitnessState.revealStep "" = pr :=
  pick_weighted_matches_spec pickWitnessState ⟨"P1", "Prize 1", "", "Grand", [Tier.T1]⟩
    (by decide) (by decide) (by decide) (by decide)

/-! ### C9: the key strings that seed the committed selection streams -/

/-- Modelled from the spec (§4.2, §4.6) for comparison: the claim's
group-mode key, whose scope component is `GROUP:<groupName>`. -/
def claimGroupScopedBase (seedText groupName : String) (step : Nat) (pairs : List String) :
    String :=
  seedText ++ "|GROUP:" ++ groupName ++ "|step:" ++ toString step ++ "|prefix:" ++
    String.join (pairs.take step)

/-- Concrete group-mode state for the C9 counterexample: one prize `P1` of
group `Grand` at card step 1, two eligible candidates with second pairs
`11` and `22`, seed `1`. -/
def scopeCexState : EngineState :=
  { participants := [⟨1, "A", "0911222222", Tier.T1⟩, ⟨2, "B", "0922333333", Tier.T1⟩]
    prizes := [⟨"P1", "Prize 1", "", "Grand", [Tier.T1]⟩]
    currentPrizeIndex := 0, winnersByPrizeId := []
    groupMode := true, selectedGroup := "Grand"
    groupRevealByPrizeId :=
      [("P1", { pairs := ["09", "--", "--", "--", "--"], step := 1, done := false
                spin := none, spinning := false })]
    revealedPairs := placeholders, revealStep := 0, spinValue := "--", seedText := "1" }

/-- C9 counterexample: in the concrete group-mode state above, the group
tick commits pair `22` for prize `P1`, drawn from the stream seeded by the
`PRIZE:P1`-scoped key; the stream seeded by the claim's
`GROUP:Grand`-scoped key for the same step and prefix would pick `11`, so
the committed selection is not seeded under the claimed scope rule. -/
theorem group_scope_claim_cex :
    (alookup (groupTickAdvance scopeCexState) "P1").map CardReveal.pairs =
        some ["09", "22", "--", "--", "--"] ∧
      weightedChoose [("11", 1), ("22", 1)]
          (mulberry32Out (hashStringToInt32
            (claimGroupScopedBase "1" "Grand" 1 ["09", "--", "--", "--", "--"]))) 2 = "11" ∧
      hashStringToInt32 (groupPrfBase "1" "P1" 1 ["09", "--", "--", "--", "--"]) ≠
        hashStringToInt32 (claimGroupScopedBase "1" "Grand" 1 ["09", "--", "--", "--", "--"]) := by
  decide

/-- C9 amended: every committed single-prize-mode selection is seeded from
the key `seed|<prizeId>|step:<step>|prefix:<revealed>|<salt>` whose scope is
the current prize id; every group-mode per-prize selection is seeded from
the key `seed|PRIZE:<prizeId>|step:<cardStep>|prefix:<cardPrefix>` scoped by
`PRIZE:` and the prize's own id, step, and prefix (with salt `fallback` on
the empty-sub-pool fallback stream), not by `GROUP:<groupName>`. -/
theorem selection_key_scopes (s : EngineState) (cp : Prize) (step : Nat) (extra : String)
    (hg : s.groupMode = false) (hcp : currentPrize s = some cp) (hid : cp.id ≠ "") :
    prfBase s step extra =
      s.seedText ++ "|" ++ cp.id ++ "|step:" ++ toString step ++ "|prefix:" ++
        String.join s.revealedPairs ++ "|" ++ extra ∧
    (∀ seed pid st prs, groupPrfBase seed pid st prs =
      seed ++ "|PRIZE:" ++ pid ++ "|step:" ++ toString st ++ "|prefix:" ++
        String.join (prs.take st)) ∧
    (∀ seed pid st, groupFallbackBase seed pid st =
      seed ++ "|PRIZE:" ++ pid ++ "|step:" ++ toString st ++ "|fallback") ∧
    (remainingList s ≠ [] → s.revealStep < 5 →
      pickNextPairWeighted s = some (weightedChoose (countsFor (remainingList s) s.revealStep)
        (mulberry32Out (hashStringToInt32 (s.seedText ++ "|" ++ cp.id ++ "|step:" ++
          toString (s.revealStep + 1) ++ "|prefix:" ++ String.join s.revealedPairs ++ "|")))
        (((countsFor (remainingList s) s.revealStep).map Prod.snd).sum))) := by
  have hbase : ∀ st ex, prfBase s st ex =
      s.seedText ++ "|" ++ cp.id ++ "|step:" ++ toString st ++ "|prefix:" ++
        String.join s.revealedPairs ++ "|" ++ ex := by
    intro st ex
    simp [prfBase, prfScope, hg, hcp, hid]
  refine ⟨hbase step extra, fun seed pid st prs => rfl, fun seed pid st => rfl,
    fun hpool hstep => ?_⟩
  have hne : countsFor (remainingList s) s.revealStep ≠ [] := countsFor_ne_nil _ _ hpool
  have hstep2 : ¬s.revealStep ≥ 5 := by omega
  have hcpn : (currentPrize s).isNone = false := by simp [hcp]
  simp only [pickNextPairWeighted, hg, Bool.false_and, Bool.false_eq_true, if_false,
    Bool.not_false, hcpn, Bool.true_and, if_neg hstep2, Bool.and_false]
  rw [if_neg (by simpa using hne)]
  have hkey : prfSeed s (s.revealStep + 1) "" = hashStringToInt32 (s.seedText ++ "|" ++ cp.id ++
      "|step:" ++ toString (s.revealStep + 1) ++ "|prefix:" ++
      String.join s.revealedPairs ++ "|") := by
    unfold prfSeed
    rw [hbase]
    simp
  rw [← hkey]

/-- Witness for C9's amended statement at a concrete single-mode state. -/
theorem selection_key_scopes_witness :
    prfBase autoFinishState 1 "" =
      "42" ++ "|" ++ "P1" ++ "|step:" ++ toString 1 ++ "|prefix:" ++
        String.join autoFinishState.revealedPairs ++ "|" ++ "" :=
  (selection_key_scopes autoFinishState ⟨"P1", "Prize 1", "", "Grand", [Tier.T1]⟩ 1 ""
    (by decide) (by decide) (by decide)).1

/-! ### C2 and C3: global injectivity of the winners map -/

theorem head?_mem {α : Type} {l : List α} {a : α} (h : l.head? = some a) : a ∈ l := by
  cases l with
  | nil => simp at h
  | cons b rest =>
      simp only [List.head?_cons, Option.some.injEq] at h
      exact h ▸ List.mem_cons_self _ _

theorem mem_avalues_aset {α : Type} (w : List (String × α)) (k : String) (v x : α)
    (h : x ∈ avalues (aset w k v)) : x = v ∨ x ∈ avalues w := by
  induction w with
  | nil => simpa [aset, avalues] using h
  | cons kv rest ih =>
      obtain ⟨k2, v2⟩ := kv
      by_cases he : k2 = k
      · simp only [aset, beq_iff_eq, if_pos he, avalues, List.map_cons, List.mem_cons] at h ⊢
        tauto
      · simp only [aset, beq_iff_eq, if_neg he, avalues, List.map_cons, List.mem_cons] at h ⊢
        rcases h with h | h
        · exact Or.inr (Or.inl h)
        · rcases ih h with h2 | h2
          · exact Or.inl h2
          · exact Or.inr (Or.inr h2)

theorem nodup_avalues_aset {α : Type} (w : List (String × α)) (k : String) (v : α)
    (hnd : (avalues w).Nodup) (hv : v ∉ avalues w) : (avalues (aset w k v)).Nodup := by
  induction w with
  | nil => simp [aset, avalues]
  | cons kv rest ih =>
      obtain ⟨k2, v2⟩ := kv
      simp only [avalues, List.map_cons, List.nodup_cons] at hnd
      have hv' : ¬(v = v2 ∨ v ∈ List.map Prod.snd rest) := by
        simpa [avalues, List.mem_cons] using hv
      push_neg at hv'
      by_cases he : k2 = k
      · simp only [aset, beq_iff_eq, if_pos he, avalues, List.map_cons, List.nodup_cons]
        exact ⟨hv'.2, hnd.2⟩
      · simp only [aset, beq_iff_eq, if_neg he, avalues, List.map_cons, List.nodup_cons]
        refine ⟨fun hc => ?_, ih hnd.2 (by simpa [avalues] using hv'.2)⟩
        rcases mem_avalues_aset _ _ _ _ (by simpa [avalues] using hc) with h2 | h2
        · exact hv'.1 h2.symm
        · exact hnd.1 (by simpa [avalues] using h2)

theorem avalues_aerase_sublist {α : Type} (w : List (String × α)) (k : String) :
    (avalues (aerase w k)).Sublist (avalues w) :=
  (List.filter_sublist w).map Prod.snd

theorem nodup_avalues_foldl_aerase {α : Type} (gps : List Prize) (w : List (String × α))
    (hnd : (avalues w).Nodup) :
    (avalues (gps.foldl (fun w2 pz => aerase w2 pz.id) w)).Nodup := by
  induction gps generalizing w with
  | nil => exact hnd
  | cons pz rest ih =>
      exact ih _ ((avalues_aerase_sublist w pz.id).nodup hnd)

theorem nodup_avalues_foldl_aset (w : List (String × Nat)) (ups : List (String × Nat))
    (hnd : (avalues w).Nodup) (hups : (ups.map Prod.snd).Nodup)
    (hfresh : ∀ v ∈ ups.map Prod.snd, v ∉ avalues w) :
    (avalues (ups.foldl (fun w2 kv => aset w2 kv.1 kv.2) w)).Nodup := by
  induction ups generalizing w with
  | nil => exact hnd
  | cons kv rest ih =>
      obtain ⟨k, v⟩ := kv
      simp only [List.map_cons, List.nodup_cons, List.mem_cons, forall_eq_or_imp] at hups hfresh
      refine ih _ (nodup_avalues_aset _ _ _ hnd hfresh.1) hups.2 ?_
      intro x hx hmem
      rcases mem_avalues_aset _ _ _ _ hmem with h2 | h2
      · have h2' : x = v := h2
        exact hups.1 (h2' ▸ hx)
      · exact hfresh.2 x hx h2

/-- The invariant carried through the group-tick finalize fold: the used
set is exactly the pre-tick winner values followed by this tick's
commitments, the committed values are pairwise distinct, and none of them
was assigned before the tick. -/
theorem groupFin_fold_inv (s : EngineState) (l : List Prize) (acc : GroupFinAcc)
    (hused : acc.used = avalues s.winnersByPrizeId ++ acc.updates.map Prod.snd)
    (hnd : (acc.updates.map Prod.snd).Nodup)
    (hdisj : ∀ v ∈ acc.updates.map Prod.snd, v ∉ avalues s.winnersByPrizeId) :
    (l.foldl (groupFinStep s) acc).used =
        avalues s.winnersByPrizeId ++ (l.foldl (groupFinStep s) acc).updates.map Prod.snd ∧
      ((l.foldl (groupFinStep s) acc).updates.map Prod.snd).Nodup ∧
      ∀ v ∈ (l.foldl (groupFinStep s) acc).updates.map Prod.snd,
        v ∉ avalues s.winnersByPrizeId := by
  induction l generalizing acc with
  | nil => exact ⟨hused, hnd, hdisj⟩
  | cons pz rest ih =>
      simp only [List.foldl_cons]
      have hcase :
          ((groupFinStep s acc pz).updates = acc.updates ∧
            (groupFinStep s acc pz).used = acc.used) ∨
          ∃ w : Participant, w.id ∉ acc.used ∧
            (groupFinStep s acc pz).updates = acc.updates ++ [(pz.id, w.id)] ∧
            (groupFinStep s acc pz).used = acc.used ++ [w.id] := by
        unfold groupFinStep
        split
        · exact Or.inl ⟨rfl, rfl⟩
        · split
          · exact Or.inl ⟨rfl, rfl⟩
          · split
            · exact Or.inl ⟨rfl, rfl⟩
            · next w h3 =>
                refine Or.inr ⟨w, ?_, rfl, rfl⟩
                have hw := head?_mem h3
                unfold groupFinPool at hw
                have hw2 := (List.mem_filter.mp hw).1
                have hw3 := (List.mem_filter.mp hw2).2
                simp only [Bool.and_eq_true, Bool.not_eq_true'] at hw3
                intro hc
                have hcont := hw3.2
                simp [List.contains] at hcont
                exact hcont hc
      rcases hcase with ⟨e2, e3⟩ | ⟨w, hwfresh, e2, e3⟩
      · exact ih (groupFinStep s acc pz) (by rw [e3, e2, hused]) (by rw [e2]; exact hnd)
          (by rw [e2]; exact hdisj)
      · have hfreshA : w.id ∉ avalues s.winnersByPrizeId := fun hc =>
          hwfresh (hused ▸ List.mem_append_left _ hc)
        have hfreshU : w.id ∉ acc.updates.map Prod.snd := fun hc =>
          hwfresh (hused ▸ List.mem_append_right _ hc)
        refine ih (groupFinStep s acc pz) ?_ ?_ ?_
        · rw [e3, e2, hused]
          simp [List.append_assoc]
        · rw [e2]
          simp only [List.map_append, List.map_cons, List.map_nil]
          rw [List.nodup_append]
          exact ⟨hnd, List.nodup_singleton _, by
            simpa [List.disjoint_singleton] using hfreshU⟩
        · intro v hv
          rw [e2] at hv
          simp only [List.map_append, List.map_cons, List.map_nil, List.mem_append,
            List.mem_singleton] at hv
          rcases hv with hv | hv
          · exact hdisj v hv
          · exact hv ▸ hfreshA

/-- C3: within one group draw tick the finalize pass walks the group's
prizes in configured order; every member of the pool a later prize resolves
from is excluded from the used set that already holds the earlier-ordered
commitments of the same tick, the winner commitments of the tick are
pairwise distinct participants, and none of them was assigned to any prize
before the tick — so two prizes finalized in one tick never commit the same
participant, and a later prize resolves to a different candidate or to
none. -/
theorem group_tick_exclusive (s : EngineState) :
    (∀ (used : List Nat) (pz : Prize) (r : CardReveal),
      ∀ q ∈ groupFinPool s used pz r, q.id ∉ used) ∧
    (((groupTickFinalize s (groupTickAdvance s)).updates.map Prod.snd).Nodup) ∧
      ∀ v ∈ (groupTickFinalize s (groupTickAdvance s)).updates.map Prod.snd,
        v ∉ avalues s.winnersByPrizeId := by
  have h := groupFin_fold_inv s (activeGroupPrizes s)
    ⟨groupTickAdvance s, [], avalues s.winnersByPrizeId⟩ (by simp) (by simp) (by simp)
  refine ⟨fun used pz r q hq => ?_, h.2.1, h.2.2⟩
  have hq2 := (List.mem_filter.mp (List.mem_of_mem_filter hq)).2
  simp only [Bool.and_eq_true, Bool.not_eq_true'] at hq2
  have hcont := hq2.2
  simp [List.contains] at hcont
  exact hcont

theorem mem_eligibleForCurrent_not_assigned (s : EngineState) (p : Participant)
    (h : p ∈ eligibleForCurrent s) : p.id ∉ avalues s.winnersByPrizeId := by
  unfold eligibleForCurrent at h
  split at h
  · simp at h
  · have h2 := (List.mem_filter.mp h).2
    simp only [Bool.and_eq_true, Bool.not_eq_true'] at h2
    have hcont := h2.2
    simp [List.contains, winnersSet] at hcont
    exact hcont

theorem mem_remainingList_not_assigned (s : EngineState) (p : Participant)
    (h : p ∈ remainingList s) : p.id ∉ avalues s.winnersByPrizeId := by
  unfold remainingList at h
  split at h
  · exact mem_eligibleForCurrent_not_assigned s p (List.mem_of_mem_filter h)
  · exact mem_eligibleForCurrent_not_assigned s p h

theorem accumPool_mem (P : Participant → Prop) (pool : List Participant)
    (acc : List Participant × List Nat) (hacc : ∀ q ∈ acc.1, P q) (hpool : ∀ q ∈ pool, P q) :
    ∀ q ∈ (pool.foldl
      (fun acc2 p => if acc2.2.contains p.id then acc2 else (acc2.1 ++ [p], acc2.2 ++ [p.id]))
      acc).1, P q := by
  induction pool generalizing acc with
  | nil => exact hacc
  | cons p rest ih =>
      simp only [List.foldl_cons]
      by_cases hc : acc.2.contains p.id
      · rw [if_pos hc]
        exact ih acc hacc (fun q hq => hpool q (List.mem_cons_of_mem _ hq))
      · rw [if_neg hc]
        refine ih _ (fun q hq => ?_) (fun q hq => hpool q (List.mem_cons_of_mem _ hq))
        rcases List.mem_append.mp hq with hq2 | hq2
        · exact hacc q hq2
        · exact (List.mem_singleton.mp hq2) ▸ hpool p (List.mem_cons_self _ _)

theorem mem_groupPoolFor_not_assigned (s : EngineState) (pz : Prize) (q : Participant)
    (hq : q ∈ groupPoolFor s pz) : q.id ∉ avalues s.winnersByPrizeId := by
  have hq0 : q ∈ (dedupedParticipants s).filter
      (fun p2 => pz.eligible.contains p2.tier && !((winnersSet s).contains p2.id)) := by
    unfold groupPoolFor at hq
    split at hq
    · split at hq
      · exact List.mem_of_mem_filter hq
      · exact hq
    · exact hq
  have h2 := (List.mem_filter.mp hq0).2
  simp only [Bool.and_eq_true, Bool.not_eq_true'] at h2
  have hcont := h2.2
  simp [List.contains, winnersSet] at hcont
  exact hcont

theorem mem_groupRemaining_not_assigned (s : EngineState) (p : Participant)
    (h : p ∈ groupRemaining s) : p.id ∉ avalues s.winnersByPrizeId := by
  unfold groupRemaining at h
  split at h
  · simp at h
  · revert h
    have main : ∀ (l : List Prize) (acc : List Participant × List Nat),
        (∀ q ∈ acc.1, q.id ∉ avalues s.winnersByPrizeId) →
        ∀ q ∈ (l.foldl
          (fun (acc : List Participant × List Nat) pz =>
            if winnerTruthy s.winnersByPrizeId pz.id then acc
            else
              (groupPoolFor s pz).foldl
                (fun acc2 p2 =>
                  if acc2.2.contains p2.id then acc2 else (acc2.1 ++ [p2], acc2.2 ++ [p2.id]))
                acc)
          acc).1, q.id ∉ avalues s.winnersByPrizeId := by
      intro l
      induction l with
      | nil => intro acc hacc; exact hacc
      | cons pz rest ih =>
          intro acc hacc
          simp only [List.foldl_cons]
          by_cases hwin : winnerTruthy s.winnersByPrizeId pz.id
          · rw [if_pos hwin]
            exact ih acc hacc
          · rw [if_neg hwin]
            exact ih _ (accumPool_mem _ _ acc hacc
              (fun q hq => mem_groupPoolFor_not_assigned s pz q hq))
    intro h
    exact main (activeGroupPrizes s) ([], []) (by simp) p h

theorem autoFinish_winners_shape (s : EngineState) :
    (autoFinish s).winnersByPrizeId = s.winnersByPrizeId ∨
    ∃ cp : Prize, ∃ w : Participant, w ∈ remainingList s ∧
      (autoFinish s).winnersByPrizeId = aset s.winnersByPrizeId cp.id w.id := by
  unfold autoFinish
  split
  · exact Or.inl rfl
  · split
    · exact Or.inl rfl
    · next cp _ =>
        split
        · exact Or.inl rfl
        · split
          · next only hpool =>
              split
              · exact Or.inr ⟨cp, only, by rw [hpool]; exact List.mem_cons_self _ _, rfl⟩
              · exact Or.inl rfl
          · exact Or.inl rfl

theorem drawFlashSingle_winners_shape (s : EngineState) :
    (drawFlashSingle s).state.winnersByPrizeId = s.winnersByPrizeId ∨
    ∃ cp : Prize, ∃ w : Participant, w ∈ remainingList s ∧
      (drawFlashSingle s).state.winnersByPrizeId = aset s.winnersByPrizeId cp.id w.id := by
  simp only [drawFlashSingle]
  split
  · exact Or.inl rfl
  · next cp _ =>
      split
      · exact Or.inl rfl
      · split
        · exact Or.inl rfl
        · split
          · exact Or.inl rfl
          · split
            · exact Or.inl rfl
            · next chosen _ =>
                split
                · exact Or.inl rfl
                · split
                  · split
                    · exact Or.inl rfl
                    · next w hw =>
                      refine Or.inr ⟨cp, w, ?_, rfl⟩
                      rcases hfp : ((remainingList s).filter
                          (fun p => prefixMatches (phoneToPairs10 p.phoneNorm)
                            (s.revealedPairs.set s.revealStep chosen) 5)).head? with _ | w2
                      · rw [hfp, Option.none_orElse'] at hw
                        exact head?_mem hw
                      · rw [hfp, Option.some_orElse'] at hw
                        injection hw with he
                        exact he ▸ List.mem_of_mem_filter (head?_mem hfp)
                  · exact Or.inl rfl

theorem undoLastPrize_winners_shape (s : EngineState) :
    (undoLastPrize s).winnersByPrizeId = s.winnersByPrizeId ∨
    ∃ k, (undoLastPrize s).winnersByPrizeId = aerase s.winnersByPrizeId k := by
  simp only [undoLastPrize]
  split
  · exact Or.inl rfl
  · next pz2 _ =>
      split
      · exact Or.inl rfl
      · exact Or.inr ⟨pz2.id, rfl⟩

/-- Every operator command preserves injectivity of the winners map
values. -/
theorem stepCmd_preserves_nodup (a : String) (c : Cmd) (s : EngineState)
    (hnd : (avalues s.winnersByPrizeId).Nodup) :
    (avalues (stepCmd a c s).winnersByPrizeId).Nodup := by
  cases c with
  | draw =>
      by_cases hg : s.groupMode
      · simp only [stepCmd, if_pos hg]
        unfold drawFlashGroup
        split
        · exact hnd
        · have hinv := groupFin_fold_inv s (activeGroupPrizes s)
            ⟨groupTickAdvance s, [], avalues s.winnersByPrizeId⟩ (by simp) (by simp) (by simp)
          show (avalues (if ((activeGroupPrizes s).foldl (groupFinStep s)
              ⟨groupTickAdvance s, [], avalues s.winnersByPrizeId⟩).updates.isEmpty then
              s.winnersByPrizeId
            else ((activeGroupPrizes s).foldl (groupFinStep s)
                ⟨groupTickAdvance s, [], avalues s.winnersByPrizeId⟩).updates.foldl
              (fun w kv => aset w kv.1 kv.2) s.winnersByPrizeId)).Nodup
          split
          · exact hnd
          · exact nodup_avalues_foldl_aset _ _ hnd hinv.2.1 hinv.2.2
      · simp only [stepCmd, if_neg hg]
        rcases drawFlashSingle_winners_shape s with h | ⟨cp, w, hw, h⟩
        · rw [h]; exact hnd
        · rw [h]
          exact nodup_avalues_aset _ _ _ hnd (mem_remainingList_not_assigned s w hw)
  | next =>
      by_cases hg : s.groupMode
      · simp only [stepCmd, if_pos hg]
        unfold nextGroup
        split
        · exact hnd
        · exact hnd
      · simp only [stepCmd, if_neg hg]
        exact hnd
  | undo =>
      by_cases hg : s.groupMode
      · simp only [stepCmd, if_pos hg]
        exact hnd
      · simp only [stepCmd, if_neg hg]
        rcases undoLastPrize_winners_shape s with h | ⟨k, h⟩
        · rw [h]; exact hnd
        · rw [h]
          exact ((avalues_aerase_sublist _ _).nodup) hnd
  | reset =>
      by_cases hg : s.groupMode
      · simp only [stepCmd, if_pos hg]
        unfold resetCurrentGroup
        split
        · exact hnd
        · exact nodup_avalues_foldl_aerase _ _ hnd
      · simp only [stepCmd, if_neg hg]
        exact hnd
  | prevG =>
      by_cases hg : s.groupMode
      · simp only [stepCmd, if_pos hg]
        unfold prevGroup
        split
        · exact hnd
        · exact hnd
      · simp only [stepCmd, if_neg hg]
        exact hnd
  | autoTick =>
      simp only [stepCmd]
      rcases autoFinish_winners_shape s with h | ⟨cp, w, hw, h⟩
      · rw [h]; exact hnd
      · rw [h]
        exact nodup_avalues_aset _ _ _ hnd (mem_remainingList_not_assigned s w hw)
  | setGroupMode b =>
      simp only [stepCmd]
      unfold syncGroupReveal
      split
      · exact hnd
      · exact hnd
  | selectGroup g =>
      simp only [stepCmd]
      unfold syncGroupReveal
      split
      · exact hnd
      · exact hnd

theorem runCmds_preserves_nodup (spins : List String) (cmds : List Cmd) (s : EngineState)
    (hnd : (avalues s.winnersByPrizeId).Nodup) :
    (avalues (runCmds spins cmds s).winnersByPrizeId).Nodup := by
  induction cmds generalizing s spins with
  | nil => exact hnd
  | cons c rest ih =>
      exact ih _ _ (stepCmd_preserves_nodup _ c s hnd)

/-- C2: in every state reachable by running any operator command sequence
from a freshly configured round, the winners map is globally injective — no
participant id occurs as the value of more than one prize id — and the
single-mode candidate pool as well as every participant of the group-mode
pool union excludes every currently assigned participant. -/
theorem winners_globally_injective (ps : List Participant) (pzs : List Prize) (seed : String)
    (spins : List String) (cmds : List Cmd) :
    (((runCmds spins cmds (initState ps pzs seed)).winnersByPrizeId.map Prod.snd).Nodup) ∧
    (∀ p ∈ remainingList (runCmds spins cmds (initState ps pzs seed)),
      p.id ∉ (runCmds spins cmds (initState ps pzs seed)).winnersByPrizeId.map Prod.snd) ∧
    (∀ p ∈ groupRemaining (runCmds spins cmds (initState ps pzs seed)),
      p.id ∉ (runCmds spins cmds (initState ps pzs seed)).winnersByPrizeId.map Prod.snd) :=
  ⟨runCmds_preserves_nodup spins cmds _ (by simp [initState, avalues]),
   fun p hp => mem_remainingList_not_assigned _ p hp,
   fun p hp => mem_groupRemaining_not_assigned _ p hp⟩

end LotteryPresenter
